import Mathlib

/-!
Shallow embedding of `lupyne/client.py` (restful json clients): the
`Resources` connection-pool dispatcher and the `Shards` partition-aware
dispatcher, together with proofs about host selection, broadcast
ordering, timeout retry and pool bookkeeping.

Hosts are address atoms (numbered); connections are identified by numeric ids
handed out by a fresh-id counter.  The network is an oracle giving, for
each host, the status of its n-th issued request (or a transport
failure).  Randomness (`random.choice`) is an index stream threaded
through the state.
-/

set_option maxHeartbeats 1000000

set_option linter.unusedSectionVars false

abbrev Host := Nat

abbrev Conn := Nat

/-- Status code `httplib.REQUEST_TIMEOUT`, the distinguished retry signal. -/
def REQUEST_TIMEOUT : Nat := 408

/-- Result of the network oracle for one issued request: a status code, or a
transport-level failure (socket error at connect/send time). -/
inductive NetRes
  | up (status : Nat)
  | down
  deriving DecidableEq, Repr

/-- Network oracle: status of the n-th request issued to a given host. -/
abbrev Net := Host → Nat → NetRes

/-- Errors surfaced by the embedded operations.  `transport` models the raw
socket error `httplib` raises (the code has no handler for it);
`indexError` models `random.choice` on an empty sequence; `fuel` marks a
truncated (non-terminating) run. `connectivity` is modelled from the spec:
the spec names a ConnectivityError, but `client.py` defines no such error
and never raises one — the constructor exists only so that theorems can
speak about it. -/
inductive NetErr
  | transport (h : Host)
  | indexError
  | fuel
  | connectivity
  deriving DecidableEq, Repr

/-- Trace events: request sent on a connection, response read on it, and a
connection returned (pushed) to a host's idle pool. -/
inductive Ev
  | send (h : Host) (c : Conn)
  | recv (h : Host) (c : Conn) (status : Nat)
  | put (h : Host) (c : Conn)
  deriving DecidableEq, Repr

/-- A completed response: which host it came from, on which connection, and
its status code (the only response data the claims depend on). -/
structure Resp where
  host : Host
  conn : Conn
  status : Nat
  deriving DecidableEq, Repr

/-! ### Association-list helpers (Python `dict` operations) -/

def alookup {α : Type} : List (Host × α) → Host → Option α
  | [], _ => none
  | (k, v) :: l, h => if k = h then some v else alookup l h

/-- Insert-or-replace, as Python `d[k] = v`. -/
def dictInsert {α : Type} : List (Host × α) → Host → α → List (Host × α)
  | [], h, v => [(h, v)]
  | (k, w) :: l, h, v => if k = h then (h, v) :: l else (k, w) :: dictInsert l h v

def keysOf {α : Type} (l : List (Host × α)) : List Host := l.map Prod.fst

/-- Replace the value stored at an existing key (no entry is created:
`self[host]` on a missing host would be a `KeyError` in the source). -/
def setPool : List (Host × List Conn) → Host → List Conn → List (Host × List Conn)
  | [], _, _ => []
  | (k, w) :: ps, h, l =>
    if k = h then (h, l) :: setPool ps h l else (k, w) :: setPool ps h l

/-- Python `min` over a non-empty list (we return 0 on `[]`, where the
source would raise ValueError; theorems stay inside non-empty inputs). -/
def listMin : List Nat → Nat
  | [] => 0
  | [a] => a
  | a :: b :: l => min a (listMin (b :: l))

/-- itertools.product over a list of lists: all tuples choosing one element
per position, rightmost varying fastest. -/
def productL {α : Type} : List (List α) → List (List α)
  | [] => [[]]
  | l :: L => l.flatMap fun a => (productL L).map fun t => a :: t

/-! ### The Shards multicast selection (client.py lines 126-133)

The pure combinatorial part of `Shards.multicast`: `sm` is the shard map
(`self`, key to owning host set), `idle` abstracts
`len(self.resources[host])`, and `r` the random draw. -/

/-- random.choice with draw `r`: element `r mod len` (none on empty). -/
def choiceFn {α : Type} (r : Nat) (l : List α) : Option α := l.get? (r % l.length)

/-- The members of a host set, enumerated as a (canonically sorted) list; this
is the iteration order we give to a Python `frozenset`/`set` of hosts. -/
def sortedHosts (s : Finset Host) : List Host :=
  Quot.liftOn s.val (List.insertionSort (· ≤ ·)) fun a b hab =>
    List.eq_of_perm_of_sorted
      (((List.perm_insertionSort _ a).trans hab).trans (List.perm_insertionSort _ b).symm)
      (List.sorted_insertionSort _ a) (List.sorted_insertionSort _ b)

theorem mem_sortedHosts {s : Finset Host} {h : Host} : h ∈ sortedHosts s ↔ h ∈ s := by
  rcases s with ⟨m, hm⟩
  rcases m with ⟨l⟩
  show h ∈ List.insertionSort (· ≤ ·) l ↔ _
  rw [(List.perm_insertionSort (· ≤ ·) l).mem_iff]
  rfl

theorem sortedHosts_ne_nil {s : Finset Host} (h : s.Nonempty) : sortedHosts s ≠ [] := by
  rcases h with ⟨a, ha⟩
  intro he
  exact absurd (mem_sortedHosts.2 ha) (by simp [he])

namespace Shards

variable {K : Type} [DecidableEq K]

/-- Line 126: `set(map(frozenset, itertools.product(*map(self.__getitem__, keys))))`,
as a deduplicated list of finsets. -/
def shardsOf (sm : K → Finset Host) (keys : List K) : List (Finset Host) :=
  ((productL (keys.map fun k => sortedHosts (sm k))).map List.toFinset).dedup

/-- Line 127: `size = min(map(len, shards))`. -/
def minSize (sm : K → Finset Host) (keys : List K) : Nat :=
  listMin ((shardsOf sm keys).map Finset.card)

/-- Line 128: `shards = [hosts for hosts in shards if len(hosts) <= size]`. -/
def minShards (sm : K → Finset Host) (keys : List K) : List (Finset Host) :=
  (shardsOf sm keys).filter fun s => s.card ≤ minSize sm keys

/-- Lines 129-131: each minimum shard repeated
`min(len(self.resources[host]) for host in hosts)` times. -/
def candidates (sm : K → Finset Host) (keys : List K) (idle : Host → Nat) :
    List (Finset Host) :=
  (minShards sm keys).flatMap fun s => List.replicate (listMin ((sortedHosts s).map idle)) s

/-- Line 132: `hosts = random.choice(candidates or shards)`. -/
def choose (sm : K → Finset Host) (keys : List K) (idle : Host → Nat) (r : Nat) :
    Option (Finset Host) :=
  let cand := candidates sm keys idle
  choiceFn r (if cand.isEmpty then minShards sm keys else cand)

/-- Modelled from the spec (§4.4 bullet 3): candidate weighting by the SUM of
the member hosts' idle-connection counts; this is the spec's stated weighting,
written here only to be compared with the code's `candidates` above. -/
def candidatesSpec (sm : K → Finset Host) (keys : List K) (idle : Host → Nat) :
    List (Finset Host) :=
  (minShards sm keys).flatMap fun s => List.replicate (Finset.sum s idle) s

/-- Spec-side description of a candidate cover: a union obtained by choosing
one owning host per (position in) `keys`. -/
def IsCoverUnion (sm : K → Finset Host) (keys : List K) (U : Finset Host) : Prop :=
  ∃ hs : List Host, List.Forall₂ (fun h k => h ∈ sm k) hs keys ∧ U = hs.toFinset

end Shards

/-! ### Basic lemmas about the helpers -/

theorem listMin_le_of_mem {l : List Nat} {a : Nat} (h : a ∈ l) : listMin l ≤ a := by
  induction l with
  | nil => cases h
  | cons b l ih =>
    cases l with
    | nil => simp at h; simp [listMin, h]
    | cons c l =>
      rcases List.mem_cons.1 h with rfl | h
      · exact min_le_left _ _
      · exact le_trans (min_le_right _ _) (ih h)

theorem listMin_mem {l : List Nat} (h : l ≠ []) : listMin l ∈ l := by
  induction l with
  | nil => exact absurd rfl h
  | cons a l ih =>
    cases l with
    | nil => simp [listMin]
    | cons b l =>
      rcases min_cases a (listMin (b :: l)) with ⟨he, _⟩ | ⟨he, _⟩
      · simp [listMin, he]
      · exact List.mem_cons.2 (Or.inr (by rw [listMin, he]; exact ih (by simp)))

theorem mem_productL {α : Type} {L : List (List α)} {t : List α} :
    t ∈ productL L ↔ List.Forall₂ (fun a l => a ∈ l) t L := by
  induction L generalizing t with
  | nil =>
    simp only [productL, List.mem_singleton]
    constructor
    · rintro rfl; exact List.Forall₂.nil
    · intro h; cases h; rfl
  | cons l L ih =>
    simp only [productL, List.mem_flatMap, List.mem_map]
    constructor
    · rintro ⟨a, ha, t', ht', rfl⟩
      exact List.Forall₂.cons ha (ih.1 ht')
    · intro h
      cases h with
      | cons ha ht => exact ⟨_, ha, _, ih.2 ht, rfl⟩

theorem productL_ne_nil {α : Type} {L : List (List α)}
    (h : ∀ l ∈ L, l ≠ []) : productL L ≠ [] := by
  induction L with
  | nil => simp [productL]
  | cons l L ih =>
    simp only [productL, ne_eq, List.flatMap_eq_nil_iff, not_forall]
    rcases List.exists_mem_of_ne_nil l (h l (List.mem_cons_self ..)) with ⟨a, ha⟩
    refine ⟨a, ha, ?_⟩
    simp only [List.map_eq_nil_iff]
    exact ih fun l' hl' => h l' (List.mem_cons_of_mem _ hl')

theorem choiceFn_mem {α : Type} {l : List α} {r : Nat} {a : α}
    (h : choiceFn r l = some a) : a ∈ l := by
  unfold choiceFn at h
  exact List.get?_mem h

theorem choiceFn_isSome {α : Type} {l : List α} (h : l ≠ []) (r : Nat) :
    ∃ a, choiceFn r l = some a := by
  have hl : 0 < l.length := List.length_pos.2 h
  have : r % l.length < l.length := Nat.mod_lt _ hl
  rcases List.get?_eq_get this with he
  exact ⟨_, he⟩

/-! ### Lemmas about the multicast cover enumeration -/

namespace Shards

variable {K : Type} [DecidableEq K]

theorem mem_shardsOf {sm : K → Finset Host} {keys : List K} {U : Finset Host} :
    U ∈ shardsOf sm keys ↔ IsCoverUnion sm keys U := by
  unfold shardsOf IsCoverUnion
  rw [List.mem_dedup, List.mem_map]
  constructor
  · rintro ⟨t, ht, rfl⟩
    refine ⟨t, ?_, rfl⟩
    have := mem_productL.1 ht
    rw [List.forall₂_map_right_iff] at this
    exact this.imp fun a b h => mem_sortedHosts.1 h
  · rintro ⟨hs, hf, rfl⟩
    refine ⟨hs, mem_productL.2 ?_, rfl⟩
    rw [List.forall₂_map_right_iff]
    exact hf.imp fun a b h => mem_sortedHosts.2 h

theorem shardsOf_ne_nil {sm : K → Finset Host} {keys : List K}
    (hne : ∀ k ∈ keys, (sm k).Nonempty) : shardsOf sm keys ≠ [] := by
  unfold shardsOf
  intro h
  rw [List.dedup_eq_nil, List.map_eq_nil_iff] at h
  refine productL_ne_nil (fun l hl => ?_) h
  rcases List.mem_map.1 hl with ⟨k, hk, rfl⟩
  exact sortedHosts_ne_nil (hne k hk)

theorem minSize_le_card {sm : K → Finset Host} {keys : List K} {U : Finset Host}
    (h : U ∈ shardsOf sm keys) : minSize sm keys ≤ U.card :=
  listMin_le_of_mem (List.mem_map_of_mem _ h)

theorem exists_shard_card_minSize {sm : K → Finset Host} {keys : List K}
    (h : shardsOf sm keys ≠ []) :
    ∃ U ∈ shardsOf sm keys, U.card = minSize sm keys := by
  have : minSize sm keys ∈ (shardsOf sm keys).map Finset.card :=
    listMin_mem (by simpa using h)
  rcases List.mem_map.1 this with ⟨U, hU, he⟩
  exact ⟨U, hU, he⟩

theorem mem_minShards_iff {sm : K → Finset Host} {keys : List K} {U : Finset Host} :
    U ∈ minShards sm keys ↔
      IsCoverUnion sm keys U ∧ ∀ V, IsCoverUnion sm keys V → U.card ≤ V.card := by
  unfold minShards
  rw [List.mem_filter]
  constructor
  · rintro ⟨hU, hle⟩
    refine ⟨mem_shardsOf.1 hU, fun V hV => ?_⟩
    exact le_trans (by simpa using hle) (minSize_le_card (mem_shardsOf.2 hV))
  · rintro ⟨hU, hmin⟩
    have hU' := mem_shardsOf.2 hU
    refine ⟨hU', ?_⟩
    rcases exists_shard_card_minSize (List.ne_nil_of_mem hU') with ⟨V, hV, he⟩
    simpa [he] using hmin V (mem_shardsOf.1 hV)

theorem minShards_ne_nil {sm : K → Finset Host} {keys : List K}
    (hne : ∀ k ∈ keys, (sm k).Nonempty) : minShards sm keys ≠ [] := by
  rcases exists_shard_card_minSize (shardsOf_ne_nil hne) with ⟨U, hU, he⟩
  exact List.ne_nil_of_mem (List.mem_filter.2 ⟨hU, by simp [he]⟩)

theorem mem_candidates_subset {sm : K → Finset Host} {keys : List K} {idle : Host → Nat}
    {U : Finset Host} (h : U ∈ candidates sm keys idle) : U ∈ minShards sm keys := by
  rcases List.mem_flatMap.1 h with ⟨s, hs, hr⟩
  rcases List.eq_of_mem_replicate hr with rfl
  exact hs

theorem choose_mem_minShards {sm : K → Finset Host} {keys : List K} {idle : Host → Nat}
    {r : Nat} {U : Finset Host} (h : choose sm keys idle r = some U) :
    U ∈ minShards sm keys := by
  simp only [choose] at h
  by_cases hc : (candidates sm keys idle).isEmpty
  · rw [if_pos hc] at h
    exact choiceFn_mem h
  · rw [if_neg hc] at h
    exact mem_candidates_subset (choiceFn_mem h)

theorem choose_isSome {sm : K → Finset Host} {keys : List K} (idle : Host → Nat)
    (hne : ∀ k ∈ keys, (sm k).Nonempty) (r : Nat) :
    ∃ U, choose sm keys idle r = some U := by
  simp only [choose]
  by_cases hc : (candidates sm keys idle).isEmpty
  · rw [if_pos hc]
    exact choiceFn_isSome (minShards_ne_nil hne) r
  · rw [if_neg hc]
    exact choiceFn_isSome (by simpa [List.isEmpty_iff] using hc) r

theorem minShards_nodup (sm : K → Finset Host) (keys : List K) :
    (minShards sm keys).Nodup :=
  (List.nodup_dedup _).filter _

theorem count_flatMap_replicate {l : List (Finset Host)} (hl : l.Nodup)
    (w : Finset Host → Nat) (U : Finset Host) :
    (l.flatMap fun s => List.replicate (w s) s).count U =
      if U ∈ l then w U else 0 := by
  induction l with
  | nil => simp
  | cons s l ih =>
    rcases List.nodup_cons.1 hl with ⟨hs, hl'⟩
    rw [List.flatMap_cons, List.count_append, ih hl']
    by_cases he : U = s
    · subst he
      simp [List.count_replicate, hs]
    · simp [List.count_replicate, Ne.symm he, he]

end Shards

/-! ### The Resources machine (client.py lines 66-108)

State of a `Resources` instance plus the run instrumentation: the
host-to-idle-connections dict, a fresh-id counter for newly constructed
`Resource` objects, a per-host counter of issued requests (indexing the
network oracle), a cursor into the random stream, and the event trace. -/

structure Resources where
  pools : List (Host × List Conn)
  next : Conn
  sent : List (Host × Nat)
  rc : Nat
  trace : List Ev
  deriving DecidableEq, Repr

namespace Resources

/-- Lines 68-69: `self.update((host, []) for host in hosts)`. -/
def init (hosts : List Host) : Resources :=
  { pools := hosts.dedup.map fun h => (h, []), next := 0, sent := [], rc := 0, trace := [] }

def getPool (st : Resources) (h : Host) : List Conn := (alookup st.pools h).getD []

def idleCount (st : Resources) (h : Host) : Nat := (getPool st h).length

/-- Lines 70-75: `pop` returns the last idle connection (`list.pop()`), or a
freshly constructed `Resource(host)` when the idle list is empty. -/
def pop (st : Resources) (h : Host) : Conn × Resources :=
  let l := getPool st h
  match l.getLast? with
  | some c => (c, { st with pools := setPool st.pools h l.dropLast })
  | none => (st.next, { st with next := st.next + 1 })

/-- Lines 76-78: `push` appends the resource to the host's idle list. -/
def push (st : Resources) (h : Host) (c : Conn) : Resources :=
  { st with pools := setPool st.pools h (getPool st h ++ [c]),
            trace := st.trace ++ [Ev.put h c] }

def sentCount (st : Resources) (h : Host) : Nat := (alookup st.sent h).getD 0

/-- Lines 79-83: `request` pops a connection and sends the request on it.
The oracle fixes the status the eventual response will carry; a `down`
answer is the transport-level socket error raised while sending. -/
def request (net : Net) (st : Resources) (h : Host) :
    Except NetErr (Conn × Nat × Resources) :=
  let (c, st') := pop st h
  match net h (sentCount st' h) with
  | NetRes.down => Except.error (NetErr.transport h)
  | NetRes.up s =>
      Except.ok (c, s,
        { st' with sent := dictInsert st'.sent h (sentCount st' h + 1),
                   trace := st'.trace ++ [Ev.send h c] })

/-- Reading the response (`resource.getresponse()`): records the recv event. -/
def getresponse (st : Resources) (h : Host) (c : Conn) (s : Nat) : Resp × Resources :=
  (⟨h, c, s⟩, { st with trace := st.trace ++ [Ev.recv h c s] })

/-- One draw from the random stream `R`. -/
def rand (R : Nat → Nat) (st : Resources) : Nat × Resources :=
  (R st.rc, { st with rc := st.rc + 1 })

/-- Line 87: `itertools.chain.from_iterable([host] * len(self[host]) for host in hosts)`. -/
def candidatesOf (st : Resources) (hosts : List Host) : List Host :=
  hosts.flatMap fun h => List.replicate (idleCount st h) h

/-- Lines 84-94 after the `hosts = tuple(hosts) or self` resolution: weighted
random host selection, request, response; on a REQUEST_TIMEOUT status the
whole body re-runs over the same host tuple (the recursion passes `hosts`
unchanged); on any other status the connection is pushed back and the
response returned.  `fuel` bounds the recursion depth. -/
def unicastGo (net : Net) (R : Nat → Nat) : Nat → List Host → Resources →
    Except NetErr (Resp × Resources)
  | 0, _, _ => Except.error NetErr.fuel
  | fuel + 1, hosts, st =>
    let cands := candidatesOf st hosts
    let (r, st1) := rand R st
    match choiceFn r (if cands.isEmpty then hosts else cands) with
    | none => Except.error NetErr.indexError
    | some h =>
      match request net st1 h with
      | Except.error e => Except.error e
      | Except.ok (c, s, st2) =>
        let (resp, st3) := getresponse st2 h c s
        if resp.status = REQUEST_TIMEOUT then unicastGo net R fuel hosts st3
        else Except.ok (resp, push st3 h c)

/-- Line 86: `hosts = tuple(hosts) or self` — an empty host argument means
the full set of known hosts (the dict's keys). -/
def resolveHosts (st : Resources) (hosts : List Host) : List Host :=
  if hosts.isEmpty then keysOf st.pools else hosts

/-- Lines 84-94: `Resources.unicast`. -/
def unicast (net : Net) (R : Nat → Nat) (fuel : Nat) (hosts : List Host)
    (st : Resources) : Except NetErr (Resp × Resources) :=
  unicastGo net R fuel (resolveHosts st hosts) st

/-- Line 99: the dict comprehension
`dict((host, self.request(host, ...)) for host in hosts)` — a request is
issued for every listed host, in order, before any response is read. -/
def sendAll (net : Net) : List Host → List (Host × Conn × Nat) → Resources →
    Except NetErr (List (Host × Conn × Nat) × Resources)
  | [], acc, st => Except.ok (acc, st)
  | h :: hs, acc, st =>
    match request net st h with
    | Except.error e => Except.error e
    | Except.ok (c, s, st') => sendAll net hs (dictInsert acc h (c, s)) st'

/-- Lines 101-107: the `for host in list(resources)` body, over a snapshot of
the pending dict; timed-out hosts get a fresh request and are collected for
the next round, others push their connection back. -/
def processRound (net : Net) : List (Host × Conn × Nat) → List (Host × Resp) →
    Resources →
    Except NetErr (List (Host × Conn × Nat) × List (Host × Resp) × Resources)
  | [], responses, st => Except.ok ([], responses, st)
  | (h, c, s) :: rest, responses, st =>
    let (resp, st1) := getresponse st h c s
    let responses1 := dictInsert responses h resp
    if resp.status = REQUEST_TIMEOUT then
      match request net st1 h with
      | Except.error e => Except.error e
      | Except.ok (c', s', st2) =>
        match processRound net rest responses1 st2 with
        | Except.error e => Except.error e
        | Except.ok (nextRes, responses2, st3) =>
          Except.ok ((h, c', s') :: nextRes, responses2, st3)
    else
      processRound net rest responses1 (push st1 h c)

/-- Lines 100-107: the `while resources:` loop, `fuel` bounding the number of
rounds. -/
def broadcastLoop (net : Net) : Nat → List (Host × Conn × Nat) →
    List (Host × Resp) → Resources → Except NetErr (List (Host × Resp) × Resources)
  | _, [], responses, st => Except.ok (responses, st)
  | 0, _ :: _, _, _ => Except.error NetErr.fuel
  | fuel + 1, res@(_ :: _), responses, st =>
    match processRound net res responses st with
    | Except.error e => Except.error e
    | Except.ok (nextRes, responses1, st1) => broadcastLoop net fuel nextRes responses1 st1

/-- Lines 95-108: `Resources.broadcast`.  The final
`map(responses.__getitem__, hosts)` is the lookup over the caller ordering
(the default below is unreachable on a successful run: every listed host has
a recorded response by then). -/
def broadcast (net : Net) (fuel : Nat) (hosts : List Host) (st : Resources) :
    Except NetErr (List Resp × Resources) :=
  let hostsT := resolveHosts st hosts
  match sendAll net hostsT [] st with
  | Except.error e => Except.error e
  | Except.ok (res, st1) =>
    match broadcastLoop net fuel res [] st1 with
    | Except.error e => Except.error e
    | Except.ok (responses, st2) =>
      Except.ok (hostsT.map (fun h => (alookup responses h).getD ⟨h, 0, 0⟩), st2)

end Resources

/-- The trace of a run's final state (empty when the run raised). -/
def traceOf {α : Type} : Except NetErr (α × Resources) → List Ev
  | Except.ok (_, st) => st.trace
  | Except.error _ => []

/-- The payload of a successful run, with a default for the error case. -/
def okD {ε α : Type} (e : Except ε α) (d : α) : α :=
  match e with
  | Except.ok a => a
  | Except.error _ => d

/-- Whether a run succeeded. -/
def isOkE {ε α : Type} : Except ε α → Bool
  | Except.ok _ => true
  | Except.error _ => false

/-! ### Shards dispatch (client.py lines 110-133) -/

namespace Shards

variable {K : Type} [DecidableEq K]

/-- Lines 116-118: `Shards.unicast` delegates to `Resources.unicast`
restricted to the key's owning hosts. -/
def unicastKey (net : Net) (R : Nat → Nat) (fuel : Nat) (sm : K → Finset Host)
    (k : K) (st : Resources) : Except NetErr (Resp × Resources) :=
  Resources.unicast net R fuel (sortedHosts (sm k)) st

/-- Lines 119-121: `Shards.broadcast` delegates to `Resources.broadcast`
restricted to the key's owning hosts. -/
def broadcastKey (net : Net) (fuel : Nat) (sm : K → Finset Host) (k : K)
    (st : Resources) : Except NetErr (List Resp × Resources) :=
  Resources.broadcast net fuel (sortedHosts (sm k)) st

/-- Lines 122-133: `Shards.multicast` — pick a minimum cover (weighted random
draw over `candidates or shards`) and broadcast to it. -/
def multicast (net : Net) (R : Nat → Nat) (fuel : Nat) (sm : K → Finset Host)
    (keys : List K) (st : Resources) : Except NetErr (List Resp × Resources) :=
  match choose sm keys (st.idleCount) (R st.rc) with
  | none => Except.error NetErr.indexError
  | some U => Resources.broadcast net fuel (sortedHosts U) { st with rc := st.rc + 1 }

end Shards

/-! ### Basic lemmas about the machine operations -/

namespace Resources

theorem pop_trace (st : Resources) (h : Host) : ((pop st h).2).trace = st.trace := by
  simp only [pop]
  split <;> rfl

theorem pop_rc (st : Resources) (h : Host) : ((pop st h).2).rc = st.rc := by
  simp only [pop]
  split <;> rfl

theorem pop_sent (st : Resources) (h : Host) : ((pop st h).2).sent = st.sent := by
  simp only [pop]
  split <;> rfl

theorem request_spec {net : Net} {st st' : Resources} {h : Host} {c : Conn} {s : Nat}
    (hr : request net st h = Except.ok (c, s, st')) :
    st'.trace = st.trace ++ [Ev.send h c] ∧ st'.pools = ((pop st h).2).pools ∧
      c = (pop st h).1 ∧ st'.rc = st.rc ∧
      net h (sentCount ((pop st h).2) h) = NetRes.up s := by
  rw [request] at hr
  rcases hp : pop st h with ⟨c0, stP⟩
  rw [hp] at hr
  simp only at hr
  cases hn : net h (sentCount stP h) <;> rw [hn] at hr
  case down => cases hr
  case up =>
    cases hr
    have hP2 : (pop st h).2 = stP := by rw [hp]
    have htr : stP.trace = st.trace := by rw [← hP2, pop_trace]
    have hrc : stP.rc = st.rc := by rw [← hP2, pop_rc]
    refine ⟨?_, rfl, rfl, ?_, rfl⟩
    · show stP.trace ++ [Ev.send h c] = st.trace ++ [Ev.send h c]
      rw [htr]
    · show stP.rc = st.rc
      rw [hrc]

theorem request_trace {net : Net} {st st' : Resources} {h : Host} {c : Conn} {s : Nat}
    (hr : request net st h = Except.ok (c, s, st')) :
    st'.trace = st.trace ++ [Ev.send h c] := (request_spec hr).1

theorem request_rc {net : Net} {st st' : Resources} {h : Host} {c : Conn} {s : Nat}
    (hr : request net st h = Except.ok (c, s, st')) : st'.rc = st.rc :=
  (request_spec hr).2.2.2.1

end Resources

/-! ### The pool-return discipline (no timed-out connection is pushed) -/

/-- An event that is not a `put`. -/
def notPut (e : Ev) : Prop := ∀ h c, e ≠ Ev.put h c

/-- Adjacency condition: a `put` of a connection may only directly follow a
read of a non-timeout response on that same connection and host. -/
def pairOk (a b : Ev) : Prop :=
  ∀ h c, b = Ev.put h c → ∃ s, a = Ev.recv h c s ∧ s ≠ REQUEST_TIMEOUT

/-- A trace in which every pushed connection was just read with a
non-timeout status: no `put` opens the trace, and every `put` is directly
preceded by the matching non-timeout `recv`. -/
def PutOk (tr : List Ev) : Prop :=
  tr.Chain' pairOk ∧ ∀ h c, tr.head? ≠ some (Ev.put h c)

theorem putOk_nil : PutOk [] := ⟨List.chain'_nil, by simp⟩

theorem putOk_append_nonput {tr : List Ev} {e : Ev} (hp : PutOk tr) (he : notPut e) :
    PutOk (tr ++ [e]) := by
  refine ⟨List.chain'_append.2 ⟨hp.1, List.chain'_singleton e, ?_⟩, ?_⟩
  · intro x _ y hy h c hput
    rw [List.head?_cons, Option.mem_def, Option.some_inj] at hy
    exact absurd (hy ▸ hput) (he h c)
  · intro h c
    cases tr with
    | nil =>
      simpa using fun hput => he h c hput
    | cons a tr =>
      simpa using fun hput => hp.2 h c (by simp [hput])

theorem putOk_append_recv_put (tr : List Ev) (h : Host) (c : Conn) (s : Nat)
    (hp : PutOk tr) (hs : s ≠ REQUEST_TIMEOUT) :
    PutOk (tr ++ [Ev.recv h c s, Ev.put h c]) := by
  refine ⟨List.chain'_append.2 ⟨hp.1, ?_, ?_⟩, ?_⟩
  · refine List.chain'_cons.2 ⟨?_, List.chain'_singleton _⟩
    intro h' c' hput
    cases hput
    exact ⟨s, rfl, hs⟩
  · intro x _ y hy h' c' hput
    rw [List.head?_cons, Option.mem_def, Option.some_inj] at hy
    cases hy ▸ hput
  · intro h' c'
    cases tr with
    | nil => simp
    | cons a tr =>
      simpa using fun hput => hp.2 h' c' (by simp [hput])


theorem notPut_send (h : Host) (c : Conn) : notPut (Ev.send h c) := by
  intro h' c' he
  cases he

theorem notPut_recv (h : Host) (c : Conn) (s : Nat) : notPut (Ev.recv h c s) := by
  intro h' c' he
  cases he

theorem unicastGo_putOk (net : Net) (R : Nat → Nat) :
    ∀ (fuel : Nat) (hosts : List Host) (st : Resources) (r : Resp) (st' : Resources),
      PutOk st.trace → Resources.unicastGo net R fuel hosts st = Except.ok (r, st') →
      PutOk st'.trace := by
  intro fuel
  induction fuel with
  | zero => intro hosts st r st' _ hr; cases hr
  | succ fuel ih =>
    intro hosts st r st' hp hr
    simp only [Resources.unicastGo, Resources.rand] at hr
    split at hr
    · cases hr
    · rename_i h0 hch
      split at hr
      · cases hr
      · rename_i trip c s st2 hreq
        simp only [Resources.getresponse] at hr
        have htr2p := Resources.request_trace hreq
        have htr2 : st2.trace = st.trace ++ [Ev.send h0 c] := htr2p
        have hp2 : PutOk (st2.trace ++ [Ev.recv h0 c s]) := by
          rw [htr2]
          exact putOk_append_nonput (putOk_append_nonput hp (notPut_send h0 c)) (notPut_recv h0 c s)
        by_cases hs : s = REQUEST_TIMEOUT
        · rw [if_pos hs] at hr
          exact ih hosts _ r st' hp2 hr
        · rw [if_neg hs] at hr
          cases hr
          show PutOk ((st2.trace ++ [Ev.recv h0 c s]) ++ [Ev.put h0 c])
          have := putOk_append_recv_put (st.trace ++ [Ev.send h0 c]) h0 c s
            (putOk_append_nonput hp (notPut_send h0 c)) hs
          rw [htr2]
          simpa [List.append_assoc] using this

theorem sendAll_putOk (net : Net) :
    ∀ (hosts : List Host) (acc : List (Host × Conn × Nat)) (st : Resources)
      (res : List (Host × Conn × Nat)) (st' : Resources),
      PutOk st.trace → Resources.sendAll net hosts acc st = Except.ok (res, st') →
      PutOk st'.trace := by
  intro hosts
  induction hosts with
  | nil => intro acc st res st' hp hr; cases hr; exact hp
  | cons h hs ih =>
    intro acc st res st' hp hr
    simp only [Resources.sendAll] at hr
    split at hr
    · cases hr
    · rename_i trip c s st1 hreq
      have htr : st1.trace = st.trace ++ [Ev.send h c] := Resources.request_trace hreq
      refine ih _ st1 res st' ?_ hr
      rw [htr]
      exact putOk_append_nonput hp (notPut_send h c)

theorem processRound_putOk (net : Net) :
    ∀ (snap : List (Host × Conn × Nat)) (responses : List (Host × Resp)) (st : Resources)
      (out : List (Host × Conn × Nat) × List (Host × Resp) × Resources),
      PutOk st.trace → Resources.processRound net snap responses st = Except.ok out →
      PutOk out.2.2.trace := by
  intro snap
  induction snap with
  | nil => intro responses st out hp hr; cases hr; exact hp
  | cons e rest ih =>
    rcases e with ⟨h, c, s⟩
    intro responses st out hp hr
    simp only [Resources.processRound, Resources.getresponse] at hr
    by_cases hs : s = REQUEST_TIMEOUT
    · rw [if_pos hs] at hr
      split at hr
      · cases hr
      · rename_i trip c' s' st2 hreq
        have htrp := Resources.request_trace hreq
        have htr : st2.trace = (st.trace ++ [Ev.recv h c s]) ++ [Ev.send h c'] := htrp
        split at hr
        · cases hr
        · rename_i out2 nextRes responses2 st3 hnext
          cases hr
          have hp2 : PutOk st2.trace := by
            rw [htr]
            exact putOk_append_nonput
              (putOk_append_nonput hp (notPut_recv h c s)) (notPut_send h c')
          have := ih (dictInsert responses h ⟨h, c, s⟩) st2 (nextRes, responses2, st3) hp2 hnext
          simpa using this
    · rw [if_neg hs] at hr
      refine ih _ _ out ?_ hr
      show PutOk ((st.trace ++ [Ev.recv h c s]) ++ [Ev.put h c])
      have := putOk_append_recv_put st.trace h c s hp hs
      simpa [List.append_assoc] using this

theorem broadcastLoop_putOk (net : Net) :
    ∀ (fuel : Nat) (res : List (Host × Conn × Nat)) (responses : List (Host × Resp))
      (st : Resources) (out : List (Host × Resp) × Resources),
      PutOk st.trace → Resources.broadcastLoop net fuel res responses st = Except.ok out →
      PutOk out.2.trace := by
  intro fuel
  induction fuel with
  | zero =>
    intro res responses st out hp hr
    cases res with
    | nil => cases hr; exact hp
    | cons e res => cases hr
  | succ fuel ih =>
    intro res responses st out hp hr
    cases res with
    | nil => cases hr; exact hp
    | cons e res =>
      simp only [Resources.broadcastLoop] at hr
      split at hr
      · cases hr
      · rename_i out1 nextRes responses1 st1 hround
        exact ih nextRes responses1 st1 out
          (processRound_putOk net (e :: res) responses st _ hp hround) hr

theorem broadcast_putOk {net : Net} {fuel : Nat} {hosts : List Host} {st : Resources}
    {rs : List Resp} {st' : Resources} (hp : PutOk st.trace)
    (hr : Resources.broadcast net fuel hosts st = Except.ok (rs, st')) :
    PutOk st'.trace := by
  simp only [Resources.broadcast] at hr
  split at hr
  · cases hr
  · rename_i out1 res st1 hsend
    split at hr
    · cases hr
    · rename_i out2 responses st2 hloop
      cases hr
      exact broadcastLoop_putOk net fuel res [] st1 _
        (sendAll_putOk net _ [] st res st1 hp hsend) hloop

/-! ### Association-list and pool lemmas -/

theorem alookup_dictInsert {α : Type} (l : List (Host × α)) (k : Host) (v : α)
    (k' : Host) :
    alookup (dictInsert l k v) k' = if k = k' then some v else alookup l k' := by
  induction l with
  | nil => simp [dictInsert, alookup]
  | cons p l ih =>
    rcases p with ⟨k0, v0⟩
    by_cases he : k0 = k
    · subst he
      rw [dictInsert, if_pos rfl]
      by_cases he' : k0 = k'
      · rw [alookup, if_pos he', if_pos he']
      · rw [alookup, if_neg he', if_neg he', alookup, if_neg he']
    · rw [dictInsert, if_neg he]
      by_cases he' : k0 = k'
      · have hkk : ¬k = k' := fun hh => he (hh.trans he'.symm).symm
        rw [alookup, if_pos he', if_neg hkk, alookup, if_pos he']
      · rw [alookup, if_neg he', ih, alookup, if_neg he']

theorem mem_keysOf_dictInsert {α : Type} {l : List (Host × α)} {k : Host} {v : α}
    {h : Host} : h ∈ keysOf (dictInsert l k v) ↔ h = k ∨ h ∈ keysOf l := by
  induction l with
  | nil => simp [dictInsert, keysOf]
  | cons p l ih =>
    rcases p with ⟨k0, v0⟩
    by_cases he : k0 = k
    · subst he
      rw [dictInsert, if_pos rfl]
      simp [keysOf, or_comm, eq_comm]
    · rw [dictInsert, if_neg he]
      simp only [keysOf, List.map_cons, List.mem_cons] at ih ⊢
      rw [ih]
      tauto

theorem keysOf_setPool (pools : List (Host × List Conn)) (h : Host) (l : List Conn) :
    keysOf (setPool pools h l) = keysOf pools := by
  induction pools with
  | nil => rfl
  | cons p ps ih =>
    rcases p with ⟨k, v⟩
    by_cases he : k = h
    · subst he
      rw [setPool, if_pos rfl]
      simp only [keysOf, List.map_cons] at ih ⊢
      rw [ih]
    · rw [setPool, if_neg he]
      simp only [keysOf, List.map_cons] at ih ⊢
      rw [ih]

theorem alookup_setPool_self {pools : List (Host × List Conn)} {h : Host}
    (hk : h ∈ keysOf pools) (l : List Conn) :
    alookup (setPool pools h l) h = some l := by
  induction pools with
  | nil => cases hk
  | cons p ps ih =>
    rcases p with ⟨k, v⟩
    by_cases he : k = h
    · subst he
      rw [setPool, if_pos rfl, alookup, if_pos rfl]
    · simp only [keysOf, List.map_cons, List.mem_cons] at hk
      rcases hk with hk | hk
      · exact absurd hk.symm he
      · rw [setPool, if_neg he, alookup, if_neg he]
        exact ih hk

theorem alookup_setPool_ne (pools : List (Host × List Conn)) {h h' : Host}
    (hne : h' ≠ h) (l : List Conn) :
    alookup (setPool pools h l) h' = alookup pools h' := by
  induction pools with
  | nil => rfl
  | cons p ps ih =>
    rcases p with ⟨k, v⟩
    by_cases he : k = h
    · subst he
      have h1 : ¬k = h' := fun hh => hne (hh.symm.trans rfl)
      rw [setPool, if_pos rfl, alookup, if_neg h1, alookup, if_neg h1]
      exact ih
    · rw [setPool, if_neg he]
      by_cases he' : k = h'
      · rw [alookup, if_pos he', alookup, if_pos he']
      · rw [alookup, if_neg he', alookup, if_neg he']
        exact ih

theorem setPool_not_mem {pools : List (Host × List Conn)} {h : Host}
    (hk : h ∉ keysOf pools) (l : List Conn) : setPool pools h l = pools := by
  induction pools with
  | nil => rfl
  | cons p ps ih =>
    rcases p with ⟨k, v⟩
    simp only [keysOf, List.map_cons, List.mem_cons, not_or] at hk
    have hne : ¬k = h := fun hh => hk.1 hh.symm
    rw [setPool, if_neg hne, ih hk.2]

theorem mem_keysOf_of_alookup {α : Type} {l : List (Host × α)} {h : Host} {v : α}
    (hl : alookup l h = some v) : h ∈ keysOf l := by
  induction l with
  | nil => cases hl
  | cons p l ih =>
    rcases p with ⟨k, w⟩
    rw [alookup] at hl
    by_cases he : k = h
    · simp [keysOf, he]
    · rw [if_neg he] at hl
      simp only [keysOf, List.map_cons, List.mem_cons]
      exact Or.inr (ih hl)

theorem alookup_of_mem_keys {α : Type} {l : List (Host × α)} {h : Host}
    (hk : h ∈ keysOf l) : ∃ v, alookup l h = some v := by
  induction l with
  | nil => cases hk
  | cons p l ih =>
    rcases p with ⟨k, w⟩
    by_cases he : k = h
    · exact ⟨w, by rw [alookup, if_pos he]⟩
    · simp only [keysOf, List.map_cons, List.mem_cons] at hk
      rcases hk with hk | hk
      · exact absurd hk.symm he
      · rcases ih hk with ⟨v, hv⟩
        exact ⟨v, by rw [alookup, if_neg he, hv]⟩

/-- Pool accounting of a successful (non-timeout) pop/request/push cycle on a
known host: the idle list is restored when it was non-empty, and gains the
freshly created connection when it was empty. -/
theorem push_after_pop_idle (st st3 : Resources) (h0 : Host)
    (hk : h0 ∈ keysOf st.pools)
    (hpools : st3.pools = ((Resources.pop st h0).2).pools) (c : Conn) :
    Resources.idleCount (Resources.push st3 h0 c) h0 =
        max (Resources.idleCount st h0) 1 ∧
      ∀ h, h ≠ h0 → Resources.idleCount (Resources.push st3 h0 c) h =
        Resources.idleCount st h := by
  rcases List.eq_nil_or_concat (Resources.getPool st h0) with hl | ⟨l', a, hl⟩
  all_goals try rw [List.concat_eq_append] at hl
  · have hpop : ((Resources.pop st h0).2).pools = st.pools := by
      simp only [Resources.pop, hl]
      rfl
    have hg3 : Resources.getPool st3 h0 = [] := by
      unfold Resources.getPool
      rw [hpools, hpop]
      exact hl
    constructor
    · unfold Resources.idleCount Resources.getPool Resources.push
      simp only [hg3, hpools, hpop, List.nil_append]
      rw [alookup_setPool_self hk]
      unfold Resources.getPool at hl
      rw [hl]
      rfl
    · intro h hne
      unfold Resources.idleCount Resources.getPool Resources.push
      simp only [hpools, hpop]
      rw [alookup_setPool_ne _ hne]
  · have hpop : ((Resources.pop st h0).2).pools = setPool st.pools h0 l' := by
      simp only [Resources.pop, hl, List.getLast?_concat]
      simp [List.dropLast_concat]
    have hg3 : Resources.getPool st3 h0 = l' := by
      unfold Resources.getPool
      rw [hpools, hpop, alookup_setPool_self hk]
      rfl
    constructor
    · unfold Resources.idleCount Resources.getPool Resources.push
      simp only [hg3, hpools, hpop]
      rw [alookup_setPool_self (by rw [keysOf_setPool]; exact hk)]
      unfold Resources.getPool at hl
      rw [hl]
      simp
    · intro h hne
      unfold Resources.idleCount Resources.getPool Resources.push
      simp only [hpools, hpop]
      rw [alookup_setPool_ne _ hne, alookup_setPool_ne _ hne]

theorem candidatesOf_subset {st : Resources} {hosts : List Host} {x : Host}
    (hx : x ∈ Resources.candidatesOf st hosts) : x ∈ hosts := by
  rcases List.mem_flatMap.1 hx with ⟨h, hh, hr⟩
  rcases List.eq_of_mem_replicate hr with rfl
  exact hh

theorem request_error {net : Net} {st : Resources} {h : Host} {e : NetErr}
    (hr : Resources.request net st h = Except.error e) : e = NetErr.transport h := by
  rw [Resources.request] at hr
  rcases hp : Resources.pop st h with ⟨c0, stP⟩
  rw [hp] at hr
  simp only at hr
  cases hn : net h (Resources.sentCount stP h) <;> rw [hn] at hr
  case up => cases hr
  case down =>
    cases hr
    rfl

/-- The choice list of `unicast` (weighted candidates, or the raw host tuple
as fallback) only contains listed hosts. -/
theorem choice_mem_hosts {st : Resources} {hosts : List Host} {r : Nat} {h0 : Host}
    (hch : choiceFn r
      (if (Resources.candidatesOf st hosts).isEmpty then hosts
       else Resources.candidatesOf st hosts) = some h0) : h0 ∈ hosts := by
  by_cases hc : (Resources.candidatesOf st hosts).isEmpty
  · rw [if_pos hc] at hch
    exact choiceFn_mem hch
  · rw [if_neg hc] at hch
    exact candidatesOf_subset (choiceFn_mem hch)

theorem unicastGo_ne_connectivity (net : Net) (R : Nat → Nat) :
    ∀ (fuel : Nat) (hosts : List Host) (st : Resources),
      Resources.unicastGo net R fuel hosts st ≠ Except.error NetErr.connectivity := by
  intro fuel
  induction fuel with
  | zero => intro hosts st hr; cases hr
  | succ fuel ih =>
    intro hosts st hr
    simp only [Resources.unicastGo, Resources.rand] at hr
    split at hr
    · cases hr
    · rename_i h0 hch
      split at hr
      · rename_i e hreq
        rcases request_error hreq with rfl
        cases hr
      · rename_i trip c s st2 hreq
        simp only [Resources.getresponse] at hr
        by_cases hs : s = REQUEST_TIMEOUT
        · rw [if_pos hs] at hr
          exact ih hosts _ hr
        · rw [if_neg hs] at hr
          cases hr

theorem unicastGo_ok_resp (net : Net) (R : Nat → Nat) :
    ∀ (fuel : Nat) (hosts : List Host) (st : Resources) (r : Resp) (st' : Resources),
      Resources.unicastGo net R fuel hosts st = Except.ok (r, st') →
      r.status ≠ REQUEST_TIMEOUT ∧ r.host ∈ hosts := by
  intro fuel
  induction fuel with
  | zero => intro hosts st r st' hr; cases hr
  | succ fuel ih =>
    intro hosts st r st' hr
    simp only [Resources.unicastGo, Resources.rand] at hr
    split at hr
    · cases hr
    · rename_i h0 hch
      split at hr
      · cases hr
      · rename_i trip c s st2 hreq
        simp only [Resources.getresponse] at hr
        by_cases hs : s = REQUEST_TIMEOUT
        · rw [if_pos hs] at hr
          exact ih hosts _ r st' hr
        · rw [if_neg hs] at hr
          cases hr
          exact ⟨hs, choice_mem_hosts hch⟩

/-- All send events in a trace target hosts of the given list. -/
def SendsIn (tr : List Ev) (hosts : List Host) : Prop :=
  ∀ h c, Ev.send h c ∈ tr → h ∈ hosts

theorem sendsIn_append_send {tr : List Ev} {hosts : List Host} {h0 : Host} {c : Conn}
    (hs : SendsIn tr hosts) (hh : h0 ∈ hosts) : SendsIn (tr ++ [Ev.send h0 c]) hosts := by
  intro h c' hmem
  rcases List.mem_append.1 hmem with hmem | hmem
  · exact hs h c' hmem
  · rcases List.mem_singleton.1 hmem with he
    cases he
    exact hh

theorem sendsIn_append_other {tr : List Ev} {hosts : List Host} {e : Ev}
    (hs : SendsIn tr hosts) (he : ∀ h c, e ≠ Ev.send h c) :
    SendsIn (tr ++ [e]) hosts := by
  intro h c' hmem
  rcases List.mem_append.1 hmem with hmem | hmem
  · exact hs h c' hmem
  · rcases List.mem_singleton.1 hmem with he'
    exact absurd he'.symm (he h c')

theorem unicastGo_sendsIn (net : Net) (R : Nat → Nat) :
    ∀ (fuel : Nat) (hosts : List Host) (st : Resources) (r : Resp) (st' : Resources),
      SendsIn st.trace hosts →
      Resources.unicastGo net R fuel hosts st = Except.ok (r, st') →
      SendsIn st'.trace hosts := by
  intro fuel
  induction fuel with
  | zero => intro hosts st r st' _ hr; cases hr
  | succ fuel ih =>
    intro hosts st r st' hsi hr
    simp only [Resources.unicastGo, Resources.rand] at hr
    split at hr
    · cases hr
    · rename_i h0 hch
      split at hr
      · cases hr
      · rename_i trip c s st2 hreq
        simp only [Resources.getresponse] at hr
        have htr2p := Resources.request_trace hreq
        have htr2 : st2.trace = st.trace ++ [Ev.send h0 c] := htr2p
        have hsi2 : SendsIn (st2.trace ++ [Ev.recv h0 c s]) hosts := by
          rw [htr2]
          exact sendsIn_append_other
            (sendsIn_append_send hsi (choice_mem_hosts hch))
            (fun h c' he => by cases he)
        by_cases hs : s = REQUEST_TIMEOUT
        · rw [if_pos hs] at hr
          exact ih hosts _ r st' hsi2 hr
        · rw [if_neg hs] at hr
          cases hr
          show SendsIn ((st2.trace ++ [Ev.recv h0 c s]) ++ [Ev.put h0 c]) hosts
          exact sendsIn_append_other hsi2 (fun h c' he => by cases he)

/-- Popping never changes the key set of the pool dict. -/
theorem keysOf_pop_pools (st : Resources) (h0 : Host) :
    keysOf (((Resources.pop st h0).2).pools) = keysOf st.pools := by
  simp only [Resources.pop]
  split
  · show keysOf (setPool st.pools h0 (Resources.getPool st h0).dropLast) = keysOf st.pools
    exact keysOf_setPool _ _ _
  · rfl

/-- Popping never increases any host's idle-connection count. -/
theorem pop_idle_le (st : Resources) (h0 h : Host) :
    Resources.idleCount ((Resources.pop st h0).2) h ≤ Resources.idleCount st h := by
  by_cases hh : h = h0
  · subst hh
    simp only [Resources.pop]
    split
    · rename_i c heq
      have hne : Resources.getPool st h ≠ [] := by
        intro hnil
        rw [hnil] at heq
        cases heq
      have hsome : ∃ v, alookup st.pools h = some v := by
        cases halk : alookup st.pools h with
        | none =>
          exfalso
          apply hne
          unfold Resources.getPool
          rw [halk]
          rfl
        | some v => exact ⟨v, rfl⟩
      rcases hsome with ⟨v, hv⟩
      unfold Resources.idleCount Resources.getPool
      show ((alookup (setPool st.pools h (Resources.getPool st h).dropLast) h).getD
        []).length ≤ _
      rw [alookup_setPool_self (mem_keysOf_of_alookup hv)]
      show (Resources.getPool st h).dropLast.length ≤ _
      unfold Resources.getPool
      rw [List.length_dropLast]
      exact Nat.sub_le _ _
    · exact le_rfl
  · simp only [Resources.pop]
    split
    · unfold Resources.idleCount Resources.getPool
      show ((alookup (setPool st.pools h0 (Resources.getPool st h0).dropLast) h).getD
        []).length ≤ _
      rw [alookup_setPool_ne _ hh]
    · exact le_rfl

/-- A successful `unicastGo` run only appends trace events. -/
theorem unicastGo_trace_mono (net : Net) (R : Nat → Nat) :
    ∀ (fuel : Nat) (hosts : List Host) (st : Resources) (r : Resp) (st' : Resources),
      Resources.unicastGo net R fuel hosts st = Except.ok (r, st') →
      ∃ d, st'.trace = st.trace ++ d := by
  intro fuel
  induction fuel with
  | zero => intro hosts st r st' hr; cases hr
  | succ fuel ih =>
    intro hosts st r st' hr
    simp only [Resources.unicastGo, Resources.rand] at hr
    split at hr
    · cases hr
    · rename_i h0 hch
      split at hr
      · cases hr
      · rename_i trip c s st2 hreq
        have htr2p := Resources.request_trace hreq
        have htr2 : st2.trace = st.trace ++ [Ev.send h0 c] := htr2p
        simp only [Resources.getresponse] at hr
        by_cases hs : s = REQUEST_TIMEOUT
        · rw [if_pos hs] at hr
          rcases ih hosts _ r st' hr with ⟨d, hd⟩
          refine ⟨[Ev.send h0 c] ++ [Ev.recv h0 c s] ++ d, ?_⟩
          rw [hd]
          show st2.trace ++ [Ev.recv h0 c s] ++ d = _
          rw [htr2]
          simp
        · rw [if_neg hs] at hr
          cases hr
          refine ⟨[Ev.send h0 c] ++ [Ev.recv h0 c s] ++ [Ev.put h0 c], ?_⟩
          show (st2.trace ++ [Ev.recv h0 c s]) ++ [Ev.put h0 c] = _
          rw [htr2]
          simp

/-- The trace contains no read of a timeout-status response. -/
def noTimeoutRecv (tr : List Ev) : Bool :=
  tr.all fun e =>
    match e with
    | Ev.recv _ _ s => s != REQUEST_TIMEOUT
    | _ => true

/-- Idle-count bounds over any successful unicast run (timeouts allowed):
the responding host ends with at least the one pushed connection and at most
max(initial, 1); every other host's count never grows (pops for abandoned
timed-out connections can only shrink it). -/
theorem unicastGo_idle_bounds (net : Net) (R : Nat → Nat) :
    ∀ (fuel : Nat) (hosts : List Host) (st : Resources) (r : Resp) (st' : Resources),
      (∀ h ∈ hosts, h ∈ keysOf st.pools) →
      Resources.unicastGo net R fuel hosts st = Except.ok (r, st') →
      1 ≤ Resources.idleCount st' r.host ∧
      Resources.idleCount st' r.host ≤ max (Resources.idleCount st r.host) 1 ∧
      ∀ h, h ≠ r.host → Resources.idleCount st' h ≤ Resources.idleCount st h := by
  intro fuel
  induction fuel with
  | zero => intro hosts st r st' _ hr; cases hr
  | succ fuel ih =>
    intro hosts st r st' Hk hr
    simp only [Resources.unicastGo, Resources.rand] at hr
    split at hr
    · cases hr
    · rename_i h0 hch
      split at hr
      · cases hr
      · rename_i trip c s st2 hreq
        have hspec := Resources.request_spec hreq
        simp only [Resources.getresponse] at hr
        have hk0 : h0 ∈ keysOf st.pools := Hk h0 (choice_mem_hosts hch)
        by_cases hs : s = REQUEST_TIMEOUT
        · rw [if_pos hs] at hr
          have hkeys : ∀ h ∈ hosts, h ∈ keysOf
              ({ st2 with trace := st2.trace ++ [Ev.recv h0 c s] } : Resources).pools := by
            intro h hh
            show h ∈ keysOf st2.pools
            rw [hspec.2.1, keysOf_pop_pools]
            exact Hk h hh
          have hb := ih hosts _ r st' hkeys hr
          have hle : ∀ h, Resources.idleCount
              ({ st2 with trace := st2.trace ++ [Ev.recv h0 c s] } : Resources) h ≤
              Resources.idleCount st h := by
            intro h
            unfold Resources.idleCount Resources.getPool
            show ((alookup st2.pools h).getD []).length ≤ _
            rw [hspec.2.1]
            have hp := pop_idle_le { st with rc := st.rc + 1 } h0 h
            unfold Resources.idleCount Resources.getPool at hp
            exact hp
          exact ⟨hb.1, le_trans hb.2.1 (max_le_max (hle r.host) le_rfl),
            fun h hne => le_trans (hb.2.2 h hne) (hle h)⟩
        · rw [if_neg hs] at hr
          cases hr
          have hmain := push_after_pop_idle { st with rc := st.rc + 1 }
            { st2 with trace := st2.trace ++ [Ev.recv h0 c s] } h0 hk0 hspec.2.1 c
          exact ⟨le_trans (le_max_right (Resources.idleCount st h0) 1)
              (le_of_eq hmain.1.symm),
            le_of_eq hmain.1,
            fun h hne => le_of_eq (hmain.2 h hne)⟩

/-- When a successful unicast run reads no timeout response at all, the
first attempt succeeded, so the chosen host's pop/push cycle is exact. -/
theorem unicast_noNewTimeout_idle {net : Net} {R : Nat → Nat} {fuel : Nat}
    {hostsArg : List Host} {st : Resources} {r : Resp} {st' : Resources}
    (Hk : ∀ h ∈ Resources.resolveHosts st hostsArg, h ∈ keysOf st.pools)
    (hr : Resources.unicast net R fuel hostsArg st = Except.ok (r, st'))
    (hnt : noTimeoutRecv st'.trace = true) :
    Resources.idleCount st' r.host = max (Resources.idleCount st r.host) 1 ∧
      ∀ h, h ≠ r.host → Resources.idleCount st' h = Resources.idleCount st h := by
  cases fuel with
  | zero => cases hr
  | succ fuel =>
    simp only [Resources.unicast, Resources.unicastGo, Resources.rand] at hr
    split at hr
    · cases hr
    · rename_i h0 hch
      split at hr
      · cases hr
      · rename_i trip c s st2 hreq
        have hspec := Resources.request_spec hreq
        simp only [Resources.getresponse] at hr
        by_cases hs : s = REQUEST_TIMEOUT
        · rw [if_pos hs] at hr
          exfalso
          rcases unicastGo_trace_mono net R fuel _ _ r st' hr with ⟨d, hd⟩
          have hmem : Ev.recv h0 c s ∈ st'.trace := by
            rw [hd]
            refine List.mem_append.2 (Or.inl ?_)
            show Ev.recv h0 c s ∈ st2.trace ++ [Ev.recv h0 c s]
            exact List.mem_append.2 (Or.inr (List.mem_singleton_self _))
          have hall := List.all_eq_true.1 hnt _ hmem
          rw [hs] at hall
          simp at hall
        · rw [if_neg hs] at hr
          cases hr
          have hk0 : h0 ∈ keysOf st.pools := Hk h0 (choice_mem_hosts hch)
          have hmain := push_after_pop_idle { st with rc := st.rc + 1 }
            { st2 with trace := st2.trace ++ [Ev.recv h0 c s] } h0 hk0 hspec.2.1 c
          exact hmain

/-! ### Broadcast response bookkeeping -/

/-- The responses dict holds, for `h`, a non-timeout response from `h`. -/
def GoodResp (responses : List (Host × Resp)) (h : Host) : Prop :=
  ∃ rp, alookup responses h = some rp ∧ rp.host = h ∧ rp.status ≠ REQUEST_TIMEOUT

theorem sendAll_keys (net : Net) :
    ∀ (hosts : List Host) (acc : List (Host × Conn × Nat)) (st : Resources)
      (res : List (Host × Conn × Nat)) (st' : Resources),
      Resources.sendAll net hosts acc st = Except.ok (res, st') →
      ∀ h, (h ∈ keysOf acc ∨ h ∈ hosts) → h ∈ keysOf res := by
  intro hosts
  induction hosts with
  | nil =>
    intro acc st res st' hr h hh
    cases hr
    rcases hh with hh | hh
    · exact hh
    · cases hh
  | cons h1 hs ih =>
    intro acc st res st' hr h hh
    simp only [Resources.sendAll] at hr
    split at hr
    · cases hr
    · rename_i trip c s st1 hreq
      refine ih _ st1 res st' hr h ?_
      rcases hh with hh | hh
      · exact Or.inl (mem_keysOf_dictInsert.2 (Or.inr hh))
      · rcases List.mem_cons.1 hh with rfl | hh
        · exact Or.inl (mem_keysOf_dictInsert.2 (Or.inl rfl))
        · exact Or.inr hh

theorem goodResp_dictInsert_ne {responses : List (Host × Resp)} {h h1 : Host} {rp : Resp}
    (hne : h1 ≠ h) (hg : GoodResp responses h) :
    GoodResp (dictInsert responses h1 rp) h := by
  rcases hg with ⟨rp', hrp, hh, hs⟩
  exact ⟨rp', by rw [alookup_dictInsert, if_neg hne, hrp], hh, hs⟩

theorem processRound_good (net : Net) :
    ∀ (snap : List (Host × Conn × Nat)) (responses : List (Host × Resp)) (st : Resources)
      (out : List (Host × Conn × Nat) × List (Host × Resp) × Resources),
      Resources.processRound net snap responses st = Except.ok out →
      ∀ h, (h ∈ keysOf snap ∨ GoodResp responses h) →
        (h ∈ keysOf out.1 ∨ GoodResp out.2.1 h) := by
  intro snap
  induction snap with
  | nil =>
    intro responses st out hr h hh
    cases hr
    rcases hh with hh | hh
    · cases hh
    · exact Or.inr hh
  | cons e rest ih =>
    rcases e with ⟨h1, c, s⟩
    intro responses st out hr h hh
    simp only [Resources.processRound, Resources.getresponse] at hr
    by_cases hs : s = REQUEST_TIMEOUT
    · rw [if_pos hs] at hr
      split at hr
      · cases hr
      · rename_i trip c' s' st2 hreq
        split at hr
        · cases hr
        · rename_i out2 nextRes responses2 st3 hnext
          cases hr
          by_cases he : h = h1
          · subst he
            exact Or.inl (by simp [keysOf])
          · have hh' : h ∈ keysOf rest ∨ GoodResp (dictInsert responses h1 ⟨h1, c, s⟩) h := by
              rcases hh with hh | hh
              · rcases List.mem_cons.1 hh with hh1 | hh1
                · exact absurd hh1 he
                · exact Or.inl hh1
              · exact Or.inr (goodResp_dictInsert_ne (fun hx => he hx.symm) hh)
            rcases ih _ st2 (nextRes, responses2, st3) hnext h hh' with hk | hg
            · exact Or.inl (by simpa [keysOf] using Or.inr hk)
            · exact Or.inr hg
    · rw [if_neg hs] at hr
      by_cases he : h = h1
      · subst he
        refine ih _ _ out hr h (Or.inr ?_)
        exact ⟨⟨h, c, s⟩, by rw [alookup_dictInsert, if_pos rfl], rfl, hs⟩
      · refine ih _ _ out hr h ?_
        rcases hh with hh | hh
        · rcases List.mem_cons.1 hh with hh1 | hh1
          · exact absurd hh1 he
          · exact Or.inl hh1
        · exact Or.inr (goodResp_dictInsert_ne (fun hx => he hx.symm) hh)

theorem broadcastLoop_good (net : Net) :
    ∀ (fuel : Nat) (res : List (Host × Conn × Nat)) (responses : List (Host × Resp))
      (st : Resources) (out : List (Host × Resp) × Resources),
      Resources.broadcastLoop net fuel res responses st = Except.ok out →
      ∀ h, (h ∈ keysOf res ∨ GoodResp responses h) → GoodResp out.1 h := by
  intro fuel
  induction fuel with
  | zero =>
    intro res responses st out hr h hh
    cases res with
    | nil =>
      cases hr
      rcases hh with hh | hh
      · cases hh
      · exact hh
    | cons e res => cases hr
  | succ fuel ih =>
    intro res responses st out hr h hh
    cases res with
    | nil =>
      cases hr
      rcases hh with hh | hh
      · cases hh
      · exact hh
    | cons e res =>
      simp only [Resources.broadcastLoop] at hr
      split at hr
      · cases hr
      · rename_i out1 nextRes responses1 st1 hround
        exact ih nextRes responses1 st1 out hr h
          (processRound_good net (e :: res) responses st _ hround h hh)

theorem broadcast_resps {net : Net} {fuel : Nat} {hosts : List Host} {st : Resources}
    {rs : List Resp} {st' : Resources}
    (hr : Resources.broadcast net fuel hosts st = Except.ok (rs, st')) :
    ∃ responses, rs = (Resources.resolveHosts st hosts).map
        (fun h => (alookup responses h).getD ⟨h, 0, 0⟩) ∧
      ∀ h ∈ Resources.resolveHosts st hosts, GoodResp responses h := by
  simp only [Resources.broadcast] at hr
  split at hr
  · cases hr
  · rename_i out1 res st1 hsend
    split at hr
    · cases hr
    · rename_i out2 responses st2 hloop
      cases hr
      refine ⟨responses, rfl, fun h hh => ?_⟩
      have hk : h ∈ keysOf res :=
        sendAll_keys net _ [] st res st1 hsend h (Or.inr hh)
      exact broadcastLoop_good net fuel res [] st1 _ hloop h (Or.inl hk)

/-! ### Trace structure of broadcast: all sends precede every read -/

theorem sendAll_trace (net : Net) :
    ∀ (hosts : List Host) (acc : List (Host × Conn × Nat)) (st : Resources)
      (res : List (Host × Conn × Nat)) (st' : Resources),
      Resources.sendAll net hosts acc st = Except.ok (res, st') →
      ∃ ds, st'.trace = st.trace ++ ds ∧ (∀ e ∈ ds, ∃ h c, e = Ev.send h c) ∧
        ∀ h ∈ hosts, ∃ c, Ev.send h c ∈ ds := by
  intro hosts
  induction hosts with
  | nil =>
    intro acc st res st' hr
    cases hr
    exact ⟨[], by simp, by simp, by simp⟩
  | cons h1 hs ih =>
    intro acc st res st' hr
    simp only [Resources.sendAll] at hr
    split at hr
    · cases hr
    · rename_i trip c s st1 hreq
      have htr : st1.trace = st.trace ++ [Ev.send h1 c] := Resources.request_trace hreq
      rcases ih _ st1 res st' hr with ⟨ds, hds, hsend, hcover⟩
      refine ⟨Ev.send h1 c :: ds, ?_, ?_, ?_⟩
      · rw [hds, htr]
        simp
      · intro e he
        rcases List.mem_cons.1 he with rfl | he
        · exact ⟨h1, c, rfl⟩
        · exact hsend e he
      · intro h hh
        rcases List.mem_cons.1 hh with rfl | hh
        · exact ⟨c, List.mem_cons_self ..⟩
        · rcases hcover h hh with ⟨c', hc'⟩
          exact ⟨c', List.mem_cons_of_mem _ hc'⟩

theorem processRound_trace (net : Net) :
    ∀ (snap : List (Host × Conn × Nat)) (responses : List (Host × Resp)) (st : Resources)
      (out : List (Host × Conn × Nat) × List (Host × Resp) × Resources),
      Resources.processRound net snap responses st = Except.ok out →
      ∃ ds, out.2.2.trace = st.trace ++ ds := by
  intro snap
  induction snap with
  | nil =>
    intro responses st out hr
    cases hr
    exact ⟨[], by simp⟩
  | cons e rest ih =>
    rcases e with ⟨h1, c, s⟩
    intro responses st out hr
    simp only [Resources.processRound, Resources.getresponse] at hr
    by_cases hs : s = REQUEST_TIMEOUT
    · rw [if_pos hs] at hr
      split at hr
      · cases hr
      · rename_i trip c' s' st2 hreq
        split at hr
        · cases hr
        · rename_i out2 nextRes responses2 st3 hnext
          cases hr
          have htr2p := Resources.request_trace hreq
          have htr2 : st2.trace = (st.trace ++ [Ev.recv h1 c s]) ++ [Ev.send h1 c'] := htr2p
          rcases ih _ st2 (nextRes, responses2, st3) hnext with ⟨ds, hds⟩
          exact ⟨[Ev.recv h1 c s] ++ [Ev.send h1 c'] ++ ds, by
            simp only at hds
            rw [hds, htr2]
            simp⟩
    · rw [if_neg hs] at hr
      rcases ih _ _ out hr with ⟨ds, hds⟩
      refine ⟨[Ev.recv h1 c s] ++ [Ev.put h1 c] ++ ds, ?_⟩
      rw [hds]
      show (({ st with trace := st.trace ++ [Ev.recv h1 c s] } : Resources).trace
        ++ [Ev.put h1 c]) ++ ds = _
      simp

theorem broadcastLoop_trace (net : Net) :
    ∀ (fuel : Nat) (res : List (Host × Conn × Nat)) (responses : List (Host × Resp))
      (st : Resources) (out : List (Host × Resp) × Resources),
      Resources.broadcastLoop net fuel res responses st = Except.ok out →
      ∃ ds, out.2.trace = st.trace ++ ds := by
  intro fuel
  induction fuel with
  | zero =>
    intro res responses st out hr
    cases res with
    | nil => cases hr; exact ⟨[], by simp⟩
    | cons e res => cases hr
  | succ fuel ih =>
    intro res responses st out hr
    cases res with
    | nil => cases hr; exact ⟨[], by simp⟩
    | cons e res =>
      simp only [Resources.broadcastLoop] at hr
      split at hr
      · cases hr
      · rename_i out1 nextRes responses1 st1 hround
        rcases processRound_trace net (e :: res) responses st _ hround with ⟨d1, hd1⟩
        rcases ih nextRes responses1 st1 out hr with ⟨d2, hd2⟩
        exact ⟨d1 ++ d2, by rw [hd2]; simp only at hd1; rw [hd1]; simp⟩

/-- Structure of a successful broadcast trace: everything appended consists
of one block of send events covering every target host, followed by the
rest of the run. -/
theorem broadcast_trace_structure {net : Net} {fuel : Nat} {hosts : List Host}
    {st : Resources} {rs : List Resp} {st' : Resources}
    (hr : Resources.broadcast net fuel hosts st = Except.ok (rs, st')) :
    ∃ ds dl, st'.trace = (st.trace ++ ds) ++ dl ∧
      (∀ e ∈ ds, ∃ h c, e = Ev.send h c) ∧
      ∀ h ∈ Resources.resolveHosts st hosts, ∃ c, Ev.send h c ∈ ds := by
  simp only [Resources.broadcast] at hr
  split at hr
  · cases hr
  · rename_i out1 res st1 hsend
    split at hr
    · cases hr
    · rename_i out2 responses st2 hloop
      cases hr
      rcases sendAll_trace net _ [] st res st1 hsend with ⟨ds, hds, hsnd, hcov⟩
      rcases broadcastLoop_trace net fuel res [] st1 _ hloop with ⟨dl, hdl⟩
      refine ⟨ds, dl, ?_, hsnd, hcov⟩
      simp only at hdl
      rw [hdl, hds]

/-- With one unit of fuel, a reachable never-timing-out oracle and a
non-empty host list, `unicastGo` succeeds. -/
theorem unicastGo_ok_one {net : Net} {R : Nat → Nat} {hosts : List Host}
    {st : Resources} (hne : hosts ≠ [])
    (Hup : ∀ h k, net h k ≠ NetRes.down)
    (Hnt : ∀ h k s, net h k = NetRes.up s → s ≠ REQUEST_TIMEOUT) :
    isOkE (Resources.unicastGo net R 1 hosts st) = true := by
  simp only [Resources.unicastGo, Resources.rand]
  have hL : (if (Resources.candidatesOf st hosts).isEmpty then hosts
      else Resources.candidatesOf st hosts) ≠ [] := by
    by_cases hc : (Resources.candidatesOf st hosts).isEmpty
    · rw [if_pos hc]
      exact hne
    · rw [if_neg hc]
      simpa [List.isEmpty_iff] using hc
  obtain ⟨h0, hch⟩ := choiceFn_isSome hL (R st.rc)
  rw [hch]
  dsimp only
  rcases hp : Resources.pop { st with rc := st.rc + 1 } h0 with ⟨c0, stP⟩
  cases hn : net h0 (Resources.sentCount stP h0)
  case down => exact absurd hn (Hup h0 _)
  case up s =>
    have hreq : Resources.request net { st with rc := st.rc + 1 } h0 =
        Except.ok (c0, s,
          { stP with sent := dictInsert stP.sent h0 (Resources.sentCount stP h0 + 1),
                     trace := stP.trace ++ [Ev.send h0 c0] }) := by
      rw [Resources.request, hp]
      simp only
      rw [hn]
    rw [hreq]
    simp only [Resources.getresponse]
    rw [if_neg (Hnt h0 _ s hn)]
    rfl

/-! ### Claim theorems: multicast cover selection (C1, C2, C5) -/

theorem isCoverUnion_singleton {K : Type} [DecidableEq K] {sm : K → Finset Host}
    {keys : List K} {h : Host} (hk : keys ≠ []) (hsh : ∀ k ∈ keys, h ∈ sm k) :
    Shards.IsCoverUnion sm keys {h} := by
  refine ⟨keys.map fun _ => h, ?_, ?_⟩
  · rw [List.forall₂_map_left_iff]
    exact List.forall₂_same.2 fun k hk' => hsh k hk'
  · ext x
    constructor
    · intro hx
      rcases Finset.mem_singleton.1 hx with rfl
      rcases List.exists_mem_of_ne_nil keys hk with ⟨k0, hk0⟩
      exact List.mem_toFinset.2 (List.mem_map.2 ⟨k0, hk0, rfl⟩)
    · intro hx
      rcases List.mem_map.1 (List.mem_toFinset.1 hx) with ⟨k, _, rfl⟩
      exact Finset.mem_singleton_self h

theorem isCoverUnion_card_pos {K : Type} [DecidableEq K] {sm : K → Finset Host}
    {keys : List K} {U : Finset Host} (hk : keys ≠ [])
    (hU : Shards.IsCoverUnion sm keys U) : 0 < U.card := by
  rcases hU with ⟨hs, hf, rfl⟩
  have hlen : hs.length = keys.length := hf.length_eq
  have hne : hs ≠ [] := by
    intro he
    subst he
    exact hk (List.length_eq_zero.1 hlen.symm)
  rcases List.exists_mem_of_ne_nil hs hne with ⟨a, ha⟩
  exact Finset.card_pos.2 ⟨a, List.mem_toFinset.2 ha⟩

/-- C1: the covers `multicast` enumerates after the minimum-size filter are
exactly the distinct one-host-per-key unions of minimum cardinality, and the
cover handed to the final random choice (the broadcast target) is always one
of them. -/
theorem spec_c1_multicast_min_covers {K : Type} [DecidableEq K]
    (sm : K → Finset Host) (keys : List K) (idle : Host → Nat)
    (_hk : keys ≠ []) (hne : ∀ k ∈ keys, (sm k).Nonempty) :
    (∀ U, U ∈ Shards.minShards sm keys ↔
      Shards.IsCoverUnion sm keys U ∧
        ∀ V, Shards.IsCoverUnion sm keys V → U.card ≤ V.card) ∧
    ∀ r, ∃ U, Shards.choose sm keys idle r = some U ∧
      U ∈ Shards.minShards sm keys := by
  refine ⟨fun U => Shards.mem_minShards_iff, fun r => ?_⟩
  rcases Shards.choose_isSome idle hne r with ⟨U, hU⟩
  exact ⟨U, hU, Shards.choose_mem_minShards hU⟩

def smW1 : Nat → Finset Host := fun k => if k = 0 then {1, 2} else {2}

theorem spec_c1_witness :
    Shards.IsCoverUnion smW1 [0, 1] {2} ∧
      ∀ V, Shards.IsCoverUnion smW1 [0, 1] V → ({2} : Finset Host).card ≤ V.card :=
  ((spec_c1_multicast_min_covers smW1 [0, 1] (fun _ => 0) (by decide)
      (by decide)).1 {2}).1 (by decide)

def smW2 : Nat → Finset Host := fun k => if k = 0 then {1} else {2}

def idleW2 : Host → Nat := fun h => if h = 1 then 0 else 5

/-- C2 counterexample: `{1,2}` is the unique minimum cover; the sum of its
members' idle-connection counts is 5, yet the code's candidate multiset
contains it 0 times (the weight is the MINIMUM of the members' counts, and
host 1 has none), so the multiset is not "each minimum candidate repeated
once per unit of the sum". -/
theorem spec_c2_counterexample :
    ({1, 2} : Finset Host) ∈ Shards.minShards smW2 [0, 1] ∧
    Finset.sum ({1, 2} : Finset Host) idleW2 = 5 ∧
    (Shards.candidates smW2 [0, 1] idleW2).count {1, 2} = 0 ∧
    (Shards.candidates smW2 [0, 1] idleW2).count {1, 2} ≠
      Finset.sum ({1, 2} : Finset Host) idleW2 := by
  refine ⟨by decide, by decide, by decide, by decide⟩

/-- C2 (amended): each minimum-cardinality candidate is repeated once per
unit of the MINIMUM of its members' idle-connection counts (not the sum),
and when that leaves the weighted list empty the random choice falls back
to the unweighted minimum-candidate list. -/
theorem spec_c2_min_weighting {K : Type} [DecidableEq K]
    (sm : K → Finset Host) (keys : List K) (idle : Host → Nat)
    (_hk : keys ≠ []) (_hne : ∀ k ∈ keys, (sm k).Nonempty) :
    (∀ U, (Shards.candidates sm keys idle).count U =
      if U ∈ Shards.minShards sm keys
      then listMin ((sortedHosts U).map idle) else 0) ∧
    ((Shards.candidates sm keys idle).isEmpty = true →
      ∀ r, Shards.choose sm keys idle r = choiceFn r (Shards.minShards sm keys)) := by
  constructor
  · intro U
    exact Shards.count_flatMap_replicate (Shards.minShards_nodup sm keys) _ U
  · intro hc r
    simp only [Shards.choose, if_pos hc]

theorem spec_c2_witness :
    (Shards.candidates smW2 [0, 1] idleW2).count {1, 2} =
      (if ({1, 2} : Finset Host) ∈ Shards.minShards smW2 [0, 1]
       then listMin ((sortedHosts {1, 2}).map idleW2) else 0) :=
  (spec_c2_min_weighting smW2 [0, 1] idleW2 (by decide) (by decide)).1 {1, 2}

/-- C5: whenever one host owns every requested key, the selected cover has
cardinality exactly 1. -/
theorem spec_c5_shared_host_cover {K : Type} [DecidableEq K]
    (sm : K → Finset Host) (keys : List K) (idle : Host → Nat)
    (hk : keys ≠ []) (hsh : ∃ h, ∀ k ∈ keys, h ∈ sm k) :
    ∀ r, ∃ U, Shards.choose sm keys idle r = some U ∧ U.card = 1 := by
  rcases hsh with ⟨h, hsh⟩
  have hne : ∀ k ∈ keys, (sm k).Nonempty := fun k hk' => ⟨h, hsh k hk'⟩
  intro r
  rcases Shards.choose_isSome idle hne r with ⟨U, hU⟩
  have hmem := Shards.choose_mem_minShards hU
  rcases Shards.mem_minShards_iff.1 hmem with ⟨hcov, hmin⟩
  refine ⟨U, hU, le_antisymm ?_ (isCoverUnion_card_pos hk hcov)⟩
  have h1 : U.card ≤ ({h} : Finset Host).card := hmin _ (isCoverUnion_singleton hk hsh)
  simpa using h1

def smW5 : Nat → Finset Host := fun _ => {3}

theorem spec_c5_witness :
    Shards.choose smW5 [0, 1] (fun _ => 0) 0 = some {3} ∧
      ({3} : Finset Host).card = 1 := by
  rcases spec_c5_shared_host_cover smW5 [0, 1] (fun _ => 0) (by decide)
      ⟨3, by decide⟩ 0 with ⟨U, hU, hc⟩
  have he : Shards.choose smW5 [0, 1] (fun _ => 0) 0 = some {3} := by decide
  rw [he] at hU
  cases hU
  exact ⟨he, by decide⟩

/-! ### Claim theorems: unicast and broadcast behaviour -/

def netOkW : Net := fun _ _ => NetRes.up 200

def netDownW : Net := fun _ _ => NetRes.down

def rzero : Nat → Nat := fun _ => 0

def dfltRun : Resp × Resources := (⟨0, 0, 0⟩, Resources.init [])

def dfltBRun : List Resp × Resources := ([], Resources.init [])

/-- C3 counterexample: with every candidate host unreachable, `unicast`
propagates the raw transport (socket) error of the first attempted host; it
does not raise a ConnectivityError (none exists in the code). -/
theorem spec_c3_counterexample :
    Resources.unicast netDownW rzero 5 [1] (Resources.init [1]) =
      Except.error (NetErr.transport 1) ∧
    NetErr.transport 1 ≠ NetErr.connectivity := by
  refine ⟨rfl, by decide⟩

/-- C3 (amended): `unicast` retries a REQUEST_TIMEOUT response by re-running
selection over the same unchanged candidate set (every send in the run
targets that set and the returned response comes from it), never surfaces a
timeout-status response, and never raises a ConnectivityError — when all
hosts are unreachable the transport error propagates instead. -/
theorem spec_c3_retry_same_hosts (net : Net) (R : Nat → Nat) (fuel : Nat)
    (hostsArg : List Host) (st : Resources) :
    Resources.unicast net R fuel hostsArg st ≠ Except.error NetErr.connectivity ∧
    (∀ r st', Resources.unicast net R fuel hostsArg st = Except.ok (r, st') →
      r.status ≠ REQUEST_TIMEOUT ∧ r.host ∈ Resources.resolveHosts st hostsArg) ∧
    (∀ r st', SendsIn st.trace (Resources.resolveHosts st hostsArg) →
      Resources.unicast net R fuel hostsArg st = Except.ok (r, st') →
      SendsIn st'.trace (Resources.resolveHosts st hostsArg)) :=
  ⟨unicastGo_ne_connectivity net R fuel _ st,
   fun r st' hr => unicastGo_ok_resp net R fuel _ st r st' hr,
   fun r st' hsi hr => unicastGo_sendsIn net R fuel _ st r st' hsi hr⟩

theorem spec_c3_witness :
    Resources.unicast netOkW rzero 2 [1] (Resources.init [1]) ≠
      Except.error NetErr.connectivity ∧
    (okD (Resources.unicast netOkW rzero 2 [1] (Resources.init [1]))
        dfltRun).1.status ≠ REQUEST_TIMEOUT :=
  ⟨(spec_c3_retry_same_hosts netOkW rzero 2 [1] (Resources.init [1])).1,
   ((spec_c3_retry_same_hosts netOkW rzero 2 [1] (Resources.init [1])).2.1 _ _ rfl).1⟩

/-- C4: a successful broadcast over n listed hosts returns exactly n
responses, the i-th coming from the i-th host of the caller's ordering and
never carrying the timeout status (timed-out hosts are retried, not
dropped). -/
theorem spec_c4_broadcast_ordered {net : Net} {fuel : Nat} {hosts : List Host}
    {st : Resources} {rs : List Resp} {st' : Resources} (hne : hosts ≠ [])
    (hr : Resources.broadcast net fuel hosts st = Except.ok (rs, st')) :
    rs.length = hosts.length ∧
    ∀ i (hi : i < hosts.length), ∃ rp, rs.get? i = some rp ∧
      rp.host = hosts.get ⟨i, hi⟩ ∧ rp.status ≠ REQUEST_TIMEOUT := by
  have hres : Resources.resolveHosts st hosts = hosts := by
    unfold Resources.resolveHosts
    rw [if_neg (by simpa [List.isEmpty_iff] using hne)]
  rcases broadcast_resps hr with ⟨responses, hrs, hgood⟩
  rw [hres] at hrs hgood
  subst hrs
  refine ⟨by simp, fun i hi => ?_⟩
  rcases hgood (hosts.get ⟨i, hi⟩) (List.get_mem hosts i hi) with ⟨rp, hrp, hh, hs⟩
  refine ⟨rp, ?_, hh, hs⟩
  rw [List.get?_map, List.get?_eq_get hi]
  show some ((alookup responses (hosts.get ⟨i, hi⟩)).getD ⟨hosts.get ⟨i, hi⟩, 0, 0⟩) = some rp
  rw [hrp]
  rfl

def netT1 : Net := fun h k => if h = 1 ∧ k = 0 then NetRes.up 408 else NetRes.up 200

theorem spec_c4_witness :
    (okD (Resources.broadcast netT1 3 [1, 2] (Resources.init [1, 2])) dfltBRun).1.length
      = 2 ∧
    ∃ rp, (okD (Resources.broadcast netT1 3 [1, 2] (Resources.init [1, 2]))
        dfltBRun).1.get? 0 = some rp ∧ rp.host = 1 ∧ rp.status ≠ REQUEST_TIMEOUT := by
  have hr : Resources.broadcast netT1 3 [1, 2] (Resources.init [1, 2]) =
      Except.ok ((okD (Resources.broadcast netT1 3 [1, 2] (Resources.init [1, 2]))
          dfltBRun).1,
        (okD (Resources.broadcast netT1 3 [1, 2] (Resources.init [1, 2])) dfltBRun).2) :=
    rfl
  have h := spec_c4_broadcast_ordered (by decide) hr
  exact ⟨h.1, h.2 0 (by decide)⟩

/-- C6: in a broadcast run started with a clean trace, any response read
(recv event) is preceded in the trace by a send to every host of the target
set: all initial dispatches happen before the first read. -/
theorem spec_c6_sends_before_reads {net : Net} {fuel : Nat} {hosts : List Host}
    {st : Resources} {rs : List Resp} {st' : Resources}
    (h0 : st.trace = [])
    (hr : Resources.broadcast net fuel hosts st = Except.ok (rs, st')) :
    ∀ i h' c' s', st'.trace.get? i = some (Ev.recv h' c' s') →
      ∀ h ∈ Resources.resolveHosts st hosts,
        ∃ j c, j < i ∧ st'.trace.get? j = some (Ev.send h c) := by
  rcases broadcast_trace_structure hr with ⟨ds, dl, htr, hsnd, hcov⟩
  rw [h0, List.nil_append] at htr
  intro i h' c' s' hi h hh
  have hilen : ds.length ≤ i := by
    by_contra hlt
    push_neg at hlt
    rw [htr, List.get?_append hlt] at hi
    rcases hsnd _ (List.get?_mem hi) with ⟨h2, c2, he⟩
    cases he
  rcases hcov h hh with ⟨c, hc⟩
  rcases List.get?_of_mem hc with ⟨j, hj⟩
  rcases List.get?_eq_some.1 hj with ⟨hjlen, _⟩
  refine ⟨j, c, lt_of_lt_of_le hjlen hilen, ?_⟩
  rw [htr, List.get?_append hjlen]
  exact hj

theorem spec_c6_witness :
    ∃ j c, j < 2 ∧
      (okD (Resources.broadcast netT1 3 [1, 2] (Resources.init [1, 2]))
        dfltBRun).2.trace.get? j = some (Ev.send 2 c) := by
  have hr : Resources.broadcast netT1 3 [1, 2] (Resources.init [1, 2]) =
      Except.ok ((okD (Resources.broadcast netT1 3 [1, 2] (Resources.init [1, 2]))
          dfltBRun).1,
        (okD (Resources.broadcast netT1 3 [1, 2] (Resources.init [1, 2])) dfltBRun).2) :=
    rfl
  have h := spec_c6_sends_before_reads rfl hr
  exact h 2 1 0 408 (by decide) 2 (by decide)

/-- C7 (the code contradicts the spec and the repo's own tests): `Resources`
takes no idle-connection limit and `push` caches unconditionally — after two
pushes onto a host its idle list holds 2 connections, exceeding the
`limit=1` the tests configure. -/
theorem spec_c7_push_unbounded :
    Resources.idleCount
      (Resources.push (Resources.push (Resources.init [1]) 1 7) 1 8) 1 = 2 := by
  decide

def stW8 : Resources := Resources.push (Resources.init [1]) 1 0

def stW8b : Resources := Resources.push (Resources.push (Resources.init [1]) 1 7) 1 8

/-- C8 counterexample, two successful runs: (a) on a host with an empty pool
the idle count goes 0 to 1 (the freshly created connection is cached); (b) on
a host with 2 idle connections whose first response times out, the count goes
2 to 1 (the timed-out connection is abandoned and only the retry's connection
is returned).  In neither run does the count stay unchanged. -/
theorem spec_c8_counterexample :
    (Resources.idleCount (Resources.init [1]) 1 = 0 ∧
     isOkE (Resources.unicast netOkW rzero 2 [1] (Resources.init [1])) = true ∧
     Resources.idleCount
       (okD (Resources.unicast netOkW rzero 2 [1] (Resources.init [1])) dfltRun).2 1
       = 1 ∧
     (1 : Nat) ≠ 0) ∧
    (Resources.idleCount stW8b 1 = 2 ∧
     isOkE (Resources.unicast netT1 rzero 3 [1] stW8b) = true ∧
     Resources.idleCount
       (okD (Resources.unicast netT1 rzero 3 [1] stW8b) dfltRun).2 1 = 1 ∧
     (1 : Nat) ≠ 2) := by
  refine ⟨⟨by decide, by decide, by decide, by decide⟩,
    by decide, by decide, by decide, by decide⟩

/-- C8 (amended): for every successful unicast to hosts known to the pool
map, the responding host's idle count ends between 1 and max(count before, 1)
— the connection that served the success is cached, while any connections
consumed by intermediate timeouts are abandoned — and no other host's count
ever increases; when the run reads no timeout response at all the accounting
is exact: the responding host's count becomes max(count before, 1) (unchanged
when positive, 0 to 1 when the pool was empty) and every other host's count
is unchanged. -/
theorem spec_c8_idle_accounting {net : Net} {R : Nat → Nat} {fuel : Nat}
    {hostsArg : List Host} {st : Resources} {r : Resp} {st' : Resources}
    (Hk : ∀ h ∈ Resources.resolveHosts st hostsArg, h ∈ keysOf st.pools)
    (hr : Resources.unicast net R fuel hostsArg st = Except.ok (r, st')) :
    1 ≤ Resources.idleCount st' r.host ∧
    Resources.idleCount st' r.host ≤ max (Resources.idleCount st r.host) 1 ∧
    (∀ h, h ≠ r.host → Resources.idleCount st' h ≤ Resources.idleCount st h) ∧
    (noTimeoutRecv st'.trace = true →
      Resources.idleCount st' r.host = max (Resources.idleCount st r.host) 1 ∧
      ∀ h, h ≠ r.host → Resources.idleCount st' h = Resources.idleCount st h) := by
  have hb := unicastGo_idle_bounds net R fuel _ st r st' Hk hr
  exact ⟨hb.1, hb.2.1, hb.2.2, fun hnt => unicast_noNewTimeout_idle Hk hr hnt⟩

theorem spec_c8_witness :
    (1 ≤ Resources.idleCount
        (okD (Resources.unicast netT1 rzero 3 [1] stW8b) dfltRun).2
        (okD (Resources.unicast netT1 rzero 3 [1] stW8b) dfltRun).1.host) ∧
    Resources.idleCount
        (okD (Resources.unicast netT1 rzero 3 [1] stW8b) dfltRun).2
        (okD (Resources.unicast netT1 rzero 3 [1] stW8b) dfltRun).1.host ≤
      max (Resources.idleCount stW8b
        (okD (Resources.unicast netT1 rzero 3 [1] stW8b) dfltRun).1.host) 1 ∧
    Resources.idleCount
        (okD (Resources.unicast netOkW rzero 2 [1] stW8) dfltRun).2
        (okD (Resources.unicast netOkW rzero 2 [1] stW8) dfltRun).1.host =
      max (Resources.idleCount stW8
        (okD (Resources.unicast netOkW rzero 2 [1] stW8) dfltRun).1.host) 1 := by
  have hrb : Resources.unicast netT1 rzero 3 [1] stW8b =
      Except.ok ((okD (Resources.unicast netT1 rzero 3 [1] stW8b) dfltRun).1,
        (okD (Resources.unicast netT1 rzero 3 [1] stW8b) dfltRun).2) := rfl
  have hra : Resources.unicast netOkW rzero 2 [1] stW8 =
      Except.ok ((okD (Resources.unicast netOkW rzero 2 [1] stW8) dfltRun).1,
        (okD (Resources.unicast netOkW rzero 2 [1] stW8) dfltRun).2) := rfl
  have hb := spec_c8_idle_accounting (by decide) hrb
  have ha := spec_c8_idle_accounting (by decide) hra
  exact ⟨hb.1, hb.2.1, (ha.2.2.2 (by decide)).1⟩

/-- C9: in any unicast or broadcast run started with a clean trace, every
connection returned to a pool (put event) was just read with a non-timeout
status: a connection whose response timed out is never pushed back, and the
retry checks out a different (fresh or pooled) connection. -/
theorem spec_c9_no_timeout_push (net : Net) (R : Nat → Nat) (fuel : Nat)
    (hosts : List Host) (st : Resources) (hp : PutOk st.trace) :
    PutOk (traceOf (Resources.unicast net R fuel hosts st)) ∧
    PutOk (traceOf (Resources.broadcast net fuel hosts st)) := by
  constructor
  · cases hu : Resources.unicast net R fuel hosts st with
    | ok p =>
      rcases p with ⟨r, st'⟩
      exact unicastGo_putOk net R fuel _ st r st' hp hu
    | error e => exact putOk_nil
  · cases hb : Resources.broadcast net fuel hosts st with
    | ok p =>
      rcases p with ⟨rs, st'⟩
      exact broadcast_putOk hp hb
    | error e => exact putOk_nil

theorem spec_c9_witness :
    PutOk (traceOf (Resources.unicast netT1 rzero 3 [1] (Resources.init [1]))) ∧
    PutOk (traceOf (Resources.broadcast netT1 3 [1, 2] (Resources.init [1, 2]))) :=
  ⟨(spec_c9_no_timeout_push netT1 rzero 3 [1] (Resources.init [1]) putOk_nil).1,
   (spec_c9_no_timeout_push netT1 rzero 3 [1, 2] (Resources.init [1, 2]) putOk_nil).2⟩

/-- C10: an empty hosts argument is no restriction — both operations behave
exactly as when given the full list of known hosts, and with a reachable
never-timing-out oracle over a non-empty host set the empty-argument unicast
succeeds rather than raising a configuration error. -/
theorem spec_c10_empty_hosts_full_set (net : Net) (R : Nat → Nat) (fuel : Nat)
    (st : Resources) :
    Resources.unicast net R fuel [] st =
      Resources.unicast net R fuel (keysOf st.pools) st ∧
    Resources.broadcast net fuel [] st =
      Resources.broadcast net fuel (keysOf st.pools) st ∧
    (keysOf st.pools ≠ [] →
      (∀ h k, net h k ≠ NetRes.down) →
      (∀ h k s, net h k = NetRes.up s → s ≠ REQUEST_TIMEOUT) →
      isOkE (Resources.unicast net R 1 [] st) = true) := by
  have h1 : Resources.resolveHosts st [] = keysOf st.pools := rfl
  have h2 : Resources.resolveHosts st (keysOf st.pools) = keysOf st.pools := by
    unfold Resources.resolveHosts
    exact ite_self _
  refine ⟨?_, ?_, ?_⟩
  · show Resources.unicastGo net R fuel (Resources.resolveHosts st []) st =
      Resources.unicastGo net R fuel (Resources.resolveHosts st (keysOf st.pools)) st
    rw [h1, h2]
  · show Resources.broadcast net fuel [] st =
      Resources.broadcast net fuel (keysOf st.pools) st
    unfold Resources.broadcast
    rw [h1, h2]
  · intro hk Hup Hnt
    show isOkE (Resources.unicastGo net R 1 (Resources.resolveHosts st []) st) = true
    rw [h1]
    exact unicastGo_ok_one hk Hup Hnt

theorem spec_c10_witness :
    Resources.unicast netOkW rzero 2 [] (Resources.init [1, 2]) =
      Resources.unicast netOkW rzero 2 (keysOf (Resources.init [1, 2]).pools)
        (Resources.init [1, 2]) ∧
    isOkE (Resources.unicast netOkW rzero 1 [] (Resources.init [1, 2])) = true :=
  ⟨(spec_c10_empty_hosts_full_set netOkW rzero 2 (Resources.init [1, 2])).1,
   (spec_c10_empty_hosts_full_set netOkW rzero 1 (Resources.init [1, 2])).2.2
     (by decide) (fun _ _ h => by cases h) (fun _ _ s hs => by cases hs; decide)⟩
